import Mathlib

/-!
Shallow embedding of `src/examples/ui/text.rs` (bevy UI text example).

The example spawns three tagged text entities and runs three per-frame
update systems over their section lists:

* `text_color_system`: writes `sections[0].style.color` of the
  `ColorText` entity with the pulsing sinusoid formula;
* `text_update_system`: when the FPS diagnostic has a smoothed sample,
  writes `sections[1].value` of the `FpsText` entity with the sample
  formatted to two decimal places (Rust `format!("{value:.2}")`);
* `text_wave_system`: writes every section's `offset` of the `WavyText`
  entity from its index and the elapsed time, through Rust's `%` (a
  truncated remainder on floats).

Floats are modelled as real numbers (for the trigonometric systems) and
as rationals (for the decimal-formatting system, which must be
executable).  Rust's panicking index `sections[i]` is embedded as an
`Option`-returning update, `none` standing for the out-of-bounds panic.
-/

open Real

/-- One text section: `value`, `style.color` (an RGB triple),
`style.font_size` and `offset`, as in the bevy `TextSection`. -/
structure Segment where
  text : String
  color : ℝ × ℝ × ℝ
  fontSize : ℝ
  offset : ℝ × ℝ

/-- Rust's `sections[i] = f(sections[i])`: update the element at index
`i`, or `none` (the panic branch) when `i` is out of bounds. -/
def updateAt : ℕ → (Segment → Segment) → List Segment → Option (List Segment)
  | _, _, [] => none
  | 0, f, s :: rest => some (f s :: rest)
  | n + 1, f, s :: rest => (updateAt n f rest).map (fun l => s :: l)

/-- The RGB triple computed by `text_color_system` from the elapsed
seconds: `Color::srgb((1.25*t).sin()/2+0.5, (0.75*t).sin()/2+0.5,
(0.50*t).sin()/2+0.5)`. -/
noncomputable def pulsingColor (t : ℝ) : ℝ × ℝ × ℝ :=
  (Real.sin (1.25 * t) / 2 + 0.5,
   Real.sin (0.75 * t) / 2 + 0.5,
   Real.sin (0.50 * t) / 2 + 0.5)

/-- `text_color_system`: set the color of section 0 of the `ColorText`
entity to `pulsingColor t`. -/
noncomputable def text_color_system (t : ℝ) (secs : List Segment) :
    Option (List Segment) :=
  updateAt 0 (fun s => { s with color := pulsingColor t }) secs

/-- Round a rational to the nearest integer, ties to even, as the Rust
float-to-decimal formatting does.  Written over the numerator and
denominator so that the kernel can evaluate it: `f = ⌊q⌋` (integer
division by the positive denominator), and `r2 = 2 * d * (q - f)`
compares the fractional part against one half. -/
def roundHalfEven (q : ℚ) : ℤ :=
  let n := q.num
  let d : ℤ := (q.den : ℤ)
  let f := n / d
  let r2 := 2 * (n - f * d)
  if r2 < d then f
  else if d < r2 then f + 1
  else if f % 2 = 0 then f else f + 1

/-- Left-pad a two-digit fractional part with a zero. -/
def pad2 (n : ℕ) : String :=
  (if n < 10 then "0" else "") ++ toString n

/-- The Rust format spec `value:.2` (two decimal places): the magnitude scaled to
hundredths (`mkRat (q.num.natAbs * 100) q.den` is `|q| * 100`), rounded
to the nearest integer with ties to even, then printed with exactly two
decimals and the sign in front. -/
def format2 (q : ℚ) : String :=
  let h : ℚ := mkRat (q.num.natAbs * 100) q.den
  let m : ℕ := (roundHalfEven h).toNat
  (if q.num < 0 then "-" else "") ++ toString (m / 100) ++ "." ++ pad2 (m % 100)

/-- `text_update_system`: when the smoothed FPS sample is present, set
the text of section 1 of the `FpsText` entity to the sample formatted
with two decimals; when absent, fall through and change nothing. -/
def text_update_system (sample : Option ℚ) (secs : List Segment) :
    Option (List Segment) :=
  match sample with
  | none => some secs
  | some v => updateAt 1 (fun s => { s with text := format2 v }) secs


/-- Truncation toward zero, the rounding used by the Rust float
remainder operator. -/
noncomputable def truncR (x : ℝ) : ℤ :=
  if 0 ≤ x then ⌊x⌋ else ⌈x⌉

/-- The Rust remainder `a % b` on floats: `a - b * trunc (a / b)`, so
the result carries the sign of `a`. -/
noncomputable def rustRem (a b : ℝ) : ℝ :=
  a - b * truncR (a / b)

/-- Flooring modulus `a - b * ⌊a / b⌋`, the reading of `mod` used by
the specification formulas.  It agrees with `rustRem` on nonnegative
arguments. -/
noncomputable def fmod (a b : ℝ) : ℝ :=
  a - b * ⌊a / b⌋

/-- The per-section phase of `text_wave_system`:
`(time.elapsed_seconds() + (i as f32 / 10.0)) % 2.0`. -/
noncomputable def wavePhase (t : ℝ) (i : ℕ) : ℝ :=
  rustRem (t + (i : ℝ) / 10) 2

/-- The offset written into section `i` by `text_wave_system`:
`Vec2::new(0.0, f32::sin(seconds * PI) * 40.0)` with `seconds` the
phase. -/
noncomputable def waveOffset (t : ℝ) (i : ℕ) : ℝ × ℝ :=
  (0, Real.sin (wavePhase t i * Real.pi) * 40)

/-- The indexed loop body of `text_wave_system`: rewrite every
section offset, keeping track of the enumeration index. -/
noncomputable def waveGo (t : ℝ) : ℕ → List Segment → List Segment
  | _, [] => []
  | i, s :: rest => { s with offset := waveOffset t i } :: waveGo t (i + 1) rest

/-- `text_wave_system`: for the `WavyText` entity, overwrite the offset
of every section `i` with `waveOffset t i`. -/
noncomputable def text_wave_system (t : ℝ) (secs : List Segment) : List Segment :=
  waveGo t 0 secs

/-- The phase formula as the specification writes it,
`(elapsed_seconds + i/10) mod 2` with `mod` read as the flooring
modulus; stated separately so it can be compared with the phase the
code computes through the Rust remainder. -/
noncomputable def specPhase (t : ℝ) (i : ℕ) : ℝ :=
  fmod (t + (i : ℝ) / 10) 2

/-- A concrete section used by the closed witness statements. -/
def segA : Segment :=
  { text := "0", color := (1, 1, 1), fontSize := 10, offset := (0, 0) }

/-- A second concrete section used by the closed witness statements. -/
def segB : Segment :=
  { text := "FPS: ", color := (1, 1, 1), fontSize := 50, offset := (0, 0) }

/-! ### Helper lemmas -/

/-- On a nonnegative dividend and positive divisor the Rust remainder
is the flooring modulus. -/
lemma rustRem_eq_fmod (a b : ℝ) (ha : 0 ≤ a) (hb : 0 < b) :
    rustRem a b = fmod a b := by
  have h : 0 ≤ a / b := div_nonneg ha hb.le
  simp [rustRem, fmod, truncR, if_pos h]

/-- The flooring modulus by `2` is unchanged by shifting the dividend
by `2`. -/
lemma fmod_two_add_two (x : ℝ) : fmod (x + 2) 2 = fmod x 2 := by
  have harg : (x + 2) / 2 = x / 2 + 1 := by ring
  rw [fmod, fmod, harg, Int.floor_add_one]
  push_cast
  ring

/-- For a nonnegative time the wave phase agrees with the flooring
modulus formula of the specification. -/
lemma wavePhase_eq_specPhase (t : ℝ) (i : ℕ) (h : 0 ≤ t) :
    wavePhase t i = specPhase t i := by
  have ha : (0 : ℝ) ≤ t + (i : ℝ) / 10 := by positivity
  exact rustRem_eq_fmod _ _ ha (by norm_num)

/-- Shifting the section index by `20` shifts the phase argument by
exactly `2`, a full cycle of the modulus. -/
lemma wavePhase_add_20 (t : ℝ) (i : ℕ) (h : 0 ≤ t) :
    wavePhase t (i + 20) = wavePhase t i := by
  rw [wavePhase_eq_specPhase t (i + 20) h, wavePhase_eq_specPhase t i h]
  have harg : t + ((i : ℝ) + 20) / 10 = (t + (i : ℝ) / 10) + 2 := by ring
  simp only [specPhase, fmod]
  push_cast
  rw [harg]
  have := fmod_two_add_two (t + (i : ℝ) / 10)
  simpa [fmod] using this

/-- Indexing into the wave loop output: section `i` of `waveGo t n l`
is section `i` of `l` with its offset rewritten to
`waveOffset t (n + i)`. -/
lemma waveGo_getElem? (t : ℝ) (n : ℕ) (l : List Segment) (i : ℕ) :
    (waveGo t n l)[i]? =
      l[i]?.map (fun s => { s with offset := waveOffset t (n + i) }) := by
  induction l generalizing n i with
  | nil => simp [waveGo]
  | cons s rest ih =>
    cases i with
    | zero => simp [waveGo]
    | succ j =>
      simp only [waveGo, List.getElem?_cons_succ]
      rw [ih (n + 1) j]
      have harg : n + 1 + j = n + (j + 1) := by omega
      rw [harg]

/-- Every section of the wave loop output has its offset of the shape
`waveOffset t i` for some index `i`. -/
lemma mem_waveGo_offset (t : ℝ) (l : List Segment) :
    ∀ (n : ℕ) (s : Segment), s ∈ waveGo t n l → ∃ i : ℕ, s.offset = waveOffset t i := by
  induction l with
  | nil => intro n s hs; simp [waveGo] at hs
  | cons a rest ih =>
    intro n s hs
    simp only [waveGo, List.mem_cons] at hs
    rcases hs with h | h
    · exact ⟨n, by rw [h]⟩
    · exact ih (n + 1) s h

/-- In-bounds indices make `updateAt` succeed. -/
lemma updateAt_isSome (f : Segment → Segment) :
    ∀ (i : ℕ) (l : List Segment), i < l.length → (updateAt i f l).isSome := by
  intro i
  induction i with
  | zero => intro l hl; cases l with
    | nil => simp at hl
    | cons s rest => simp [updateAt]
  | succ j ih => intro l hl; cases l with
    | nil => simp at hl
    | cons s rest =>
      have h1 : j < rest.length := by simpa using hl
      rcases Option.isSome_iff_exists.mp (ih rest h1) with ⟨l2, hl2⟩
      simp [updateAt, hl2]

/-! ### Claim theorems -/

/-- C1: for every elapsed time `t`, the pulsing-color update sets the
color of section 0 of the `ColorText` element to
`RGB(sin(1.25*t)/2+0.5, sin(0.75*t)/2+0.5, sin(0.50*t)/2+0.5)`, leaving
the other fields and sections unchanged; in particular at `t = 0` the
resulting color is `(0.5, 0.5, 0.5)`. -/
theorem pulsing_color_formula (t : ℝ) (s : Segment) (rest : List Segment) :
    text_color_system t (s :: rest) =
      some ({ s with color :=
        (Real.sin (1.25 * t) / 2 + 0.5,
         Real.sin (0.75 * t) / 2 + 0.5,
         Real.sin (0.50 * t) / 2 + 0.5) } :: rest) ∧
    pulsingColor 0 = (0.5, 0.5, 0.5) := by
  refine ⟨rfl, ?_⟩
  simp only [pulsingColor, mul_zero, Real.sin_zero, zero_div, zero_add]

/-- C5: every channel of the pulsing color lies in the closed interval
`[0, 1]`, for every elapsed time `t`. -/
theorem pulsing_color_channels_in_unit_interval (t : ℝ) :
    (0 ≤ (pulsingColor t).1 ∧ (pulsingColor t).1 ≤ 1) ∧
    (0 ≤ (pulsingColor t).2.1 ∧ (pulsingColor t).2.1 ≤ 1) ∧
    (0 ≤ (pulsingColor t).2.2 ∧ (pulsingColor t).2.2 ≤ 1) := by
  have a1 := Real.neg_one_le_sin (1.25 * t)
  have a2 := Real.sin_le_one (1.25 * t)
  have b1 := Real.neg_one_le_sin (0.75 * t)
  have b2 := Real.sin_le_one (0.75 * t)
  have c1 := Real.neg_one_le_sin (0.50 * t)
  have c2 := Real.sin_le_one (0.50 * t)
  simp only [pulsingColor]
  refine ⟨⟨by linarith, by linarith⟩, ⟨by linarith, by linarith⟩,
    by linarith, by linarith⟩

/-- C2: for every nonnegative elapsed time `t` and every section index
`i` (no upper bound on `i`), the wave update sets the offset of section
`i` to `(0, sin(((t + i/10) mod 2) * pi) * 40)`, the formula of the
specification with the flooring modulus, and leaves out-of-range
indices absent. -/
theorem wave_offset_spec_formula (t : ℝ) (i : ℕ) (secs : List Segment)
    (h : 0 ≤ t) :
    (text_wave_system t secs)[i]? =
      secs[i]?.map
        (fun s => { s with offset := (0, Real.sin (specPhase t i * Real.pi) * 40) }) := by
  rw [text_wave_system, waveGo_getElem?]
  have hoff : waveOffset t (0 + i) = (0, Real.sin (specPhase t i * Real.pi) * 40) := by
    rw [Nat.zero_add, waveOffset, wavePhase_eq_specPhase t i h]
  rw [hoff]

/-- Witness for C2 at `t = 0`, a single section and index `0`. -/
theorem wave_offset_spec_formula_witness :
    (0 : ℝ) ≤ 0 ∧
      (text_wave_system 0 [segA])[0]? =
        [segA][0]?.map
          (fun s => { s with offset := (0, Real.sin (specPhase 0 0 * Real.pi) * 40) }) :=
  ⟨le_rfl, wave_offset_spec_formula 0 0 [segA] le_rfl⟩

/-- C6: every offset written by the wave update has `x` component `0`
and `y` component in the closed interval `[-40, 40]`. -/
theorem wave_offset_bounds (t : ℝ) (secs : List Segment) (s : Segment)
    (hs : s ∈ text_wave_system t secs) :
    s.offset.1 = 0 ∧ -40 ≤ s.offset.2 ∧ s.offset.2 ≤ 40 := by
  rcases mem_waveGo_offset t secs 0 s hs with ⟨i, hoff⟩
  rw [hoff]
  have h1 := Real.neg_one_le_sin (wavePhase t i * Real.pi)
  have h2 := Real.sin_le_one (wavePhase t i * Real.pi)
  refine ⟨by simp [waveOffset], ?_, ?_⟩
  · simp only [waveOffset]
    linarith
  · simp only [waveOffset]
    linarith

/-- Witness for C6 on a one-section list at `t = 0`. -/
theorem wave_offset_bounds_witness :
    ({ segA with offset := waveOffset 0 0 } : Segment).offset.1 = 0 ∧
      -40 ≤ ({ segA with offset := waveOffset 0 0 } : Segment).offset.2 ∧
      ({ segA with offset := waveOffset 0 0 } : Segment).offset.2 ≤ 40 :=
  wave_offset_bounds 0 [segA] _ (by simp [text_wave_system, waveGo])

/-- C3: for a metric element with at least two sections and a present
sample, the metric update sets the text of section 1 to the sample
formatted with two decimal places and changes nothing else; in
particular the sample `59.996` is formatted as `"60.00"`. -/
theorem metric_text_two_decimals (v : ℚ) (a b : Segment) (rest : List Segment) :
    text_update_system (some v) (a :: b :: rest) =
      some (a :: { b with text := format2 v } :: rest) ∧
    format2 (59.996 : ℚ) = "60.00" := by
  refine ⟨rfl, ?_⟩
  have h : (59.996 : ℚ) = mkRat 59996 1000 := by
    rw [Rat.mkRat_eq_div]; norm_num
  rw [h]
  decide

/-- C4: an absent sample makes the metric update a no-op: the whole
section list, section 1 included, is returned unchanged, not an error. -/
theorem metric_none_noop (secs : List Segment) :
    text_update_system none secs = some secs := rfl

/-- C7 counterexample: at `t = 0` sections `0` and `10` of the wave do
not have identical phase (their phases are `0` and `1`). -/
theorem wave_phase_0_10_counterexample : wavePhase 0 10 ≠ wavePhase 0 0 := by
  have h10 : wavePhase 0 10 = 1 := by
    rw [wavePhase, rustRem, truncR]
    norm_num
  have h0 : wavePhase 0 0 = 0 := by
    rw [wavePhase, rustRem, truncR]
    norm_num
  rw [h10, h0]
  norm_num

/-- C7 amended: for every nonnegative elapsed time, sections `0` and
`20` (not `0` and `10`) of the wave have identical phase and therefore
receive identical offsets whenever both exist. -/
theorem wave_phase_0_20_identical (t : ℝ) (secs : List Segment)
    (s0 s20 : Segment) (h : 0 ≤ t)
    (h0 : (text_wave_system t secs)[0]? = some s0)
    (h20 : (text_wave_system t secs)[20]? = some s20) :
    wavePhase t 0 = wavePhase t 20 ∧ s0.offset = s20.offset := by
  have hphase : wavePhase t 20 = wavePhase t 0 := by
    have h20' := wavePhase_add_20 t 0 h
    simpa using h20'
  refine ⟨hphase.symm, ?_⟩
  rw [text_wave_system, waveGo_getElem?] at h0 h20
  rcases Option.map_eq_some'.mp h0 with ⟨a0, ha0, hs0⟩
  rcases Option.map_eq_some'.mp h20 with ⟨a20, ha20, hs20⟩
  rw [← hs0, ← hs20]
  show waveOffset t (0 + 0) = waveOffset t (0 + 20)
  simp only [Nat.zero_add, waveOffset, hphase]

/-- Witness for the amended C7 on a 21-section list at `t = 0`. -/
theorem wave_phase_0_20_identical_witness :
    wavePhase 0 0 = wavePhase 0 20 ∧
      ({ segA with offset := waveOffset 0 0 } : Segment).offset =
        ({ segA with offset := waveOffset 0 20 } : Segment).offset :=
  wave_phase_0_20_identical 0 (List.replicate 21 segA)
    { segA with offset := waveOffset 0 0 } { segA with offset := waveOffset 0 20 }
    le_rfl (by simp [text_wave_system, waveGo, List.replicate])
    (by simp [text_wave_system, waveGo, List.replicate])

/-- C8: the wave phase is periodic with period 20 in index space: for
every nonnegative elapsed time `t` and index `i`, sections `i` and
`i + 20` have identical phase, and whenever both exist they receive
identical offsets. -/
theorem wave_phase_period_20 (t : ℝ) (i : ℕ) (secs : List Segment)
    (si sj : Segment) (h : 0 ≤ t)
    (hi : (text_wave_system t secs)[i]? = some si)
    (hj : (text_wave_system t secs)[i + 20]? = some sj) :
    wavePhase t i = wavePhase t (i + 20) ∧ si.offset = sj.offset := by
  have hphase : wavePhase t (i + 20) = wavePhase t i := wavePhase_add_20 t i h
  refine ⟨hphase.symm, ?_⟩
  rw [text_wave_system, waveGo_getElem?] at hi hj
  rcases Option.map_eq_some'.mp hi with ⟨a0, ha0, hs0⟩
  rcases Option.map_eq_some'.mp hj with ⟨a20, ha20, hs20⟩
  rw [← hs0, ← hs20]
  show waveOffset t (0 + i) = waveOffset t (0 + (i + 20))
  simp only [Nat.zero_add, waveOffset, hphase]

/-- Witness for C8 at `t = 0`, `i = 0`, on a 21-section list. -/
theorem wave_phase_period_20_witness :
    wavePhase 0 0 = wavePhase 0 (0 + 20) ∧
      ({ segA with offset := waveOffset 0 0 } : Segment).offset =
        ({ segA with offset := waveOffset 0 20 } : Segment).offset :=
  wave_phase_period_20 0 0 (List.replicate 21 segA)
    { segA with offset := waveOffset 0 0 } { segA with offset := waveOffset 0 20 }
    le_rfl (by simp [text_wave_system, waveGo, List.replicate])
    (by simp [text_wave_system, waveGo, List.replicate])

/-- C9: the three update operations are deterministic: two invocations
with identical elapsed time, sample and prior section state produce
identical section state. -/
theorem update_systems_deterministic (t t2 : ℝ) (m m2 : Option ℚ)
    (secs secs2 : List Segment) (ht : t = t2) (hm : m = m2)
    (hs : secs = secs2) :
    text_color_system t secs = text_color_system t2 secs2 ∧
    text_update_system m secs = text_update_system m2 secs2 ∧
    text_wave_system t secs = text_wave_system t2 secs2 := by
  subst ht; subst hm; subst hs
  exact ⟨rfl, rfl, rfl⟩

/-- Witness for C9 at `t = 0`, an absent sample and a one-section
list. -/
theorem update_systems_deterministic_witness :
    text_color_system 0 [segA] = text_color_system 0 [segA] ∧
    text_update_system none [segA] = text_update_system none [segA] ∧
    text_wave_system 0 [segA] = text_wave_system 0 [segA] :=
  update_systems_deterministic 0 0 none none [segA] [segA] rfl rfl rfl

/-- C10: with at least one section on the pulsing element and at least
two on the metric element, the section indexing of both updates is in
bounds, so the out-of-bounds (`none`) branch of the embedded indexing
is unreachable. -/
theorem section_indexing_in_bounds (t : ℝ) (v : ℚ)
    (secs secs2 : List Segment) (h1 : 1 ≤ secs.length)
    (h2 : 2 ≤ secs2.length) :
    (text_color_system t secs).isSome ∧
    (text_update_system (some v) secs2).isSome := by
  constructor
  · exact updateAt_isSome _ 0 secs (by omega)
  · exact updateAt_isSome _ 1 secs2 (by omega)

/-- Witness for C10 on one- and two-section lists. -/
theorem section_indexing_in_bounds_witness :
    (text_color_system 0 [segA]).isSome ∧
    (text_update_system (some 0) [segB, segA]).isSome :=
  section_indexing_in_bounds 0 0 [segA] [segB, segA] (by simp) (by simp)
